import Mathlib

/-!
Verification of the ingestion-and-retrieval pipeline of the educational
tutor backend: token-aware chunking (`chunk_text`), whitespace
normalization (`clean`), batched embedding (`embed_batches`), ingestion
(`ingest_single_pdf`), retrieval with deduplication (`retrieve`), and
document deletion (`delete_pdf`).  External collaborators (the tiktoken
encoder, the OpenAI embedder, the Chroma vector store, the pypdf text
extractor) are abstracted as function parameters; Python data (strings,
dicts, slices) is embedded explicitly.
-/

/-- Resolution of a Python slice bound `a` against a list of length `n`:
a negative index counts from the end, and the result is clamped to the
interval `[0, n]`. -/
def pyResolve (n : Nat) (a : Int) : Nat :=
  if a < 0 then ((n : Int) + a).toNat else min n a.toNat

/-- Python slice `l[a:b]` with the implicit step 1: the elements whose
position lies in `[pyResolve n a, pyResolve n b)`. -/
def pySlice {α : Type} (l : List α) (a b : Int) : List α :=
  (l.take (pyResolve l.length b)).drop (pyResolve l.length a)

/-- Embedding of the while-loop of `chunk_text` in `ingest.py`, indexed by
fuel: one unit of fuel is spent per evaluation of the loop guard
`i < len(tokens)`.  `none` means the fuel ran out, i.e. the loop is still
running after that many guard evaluations; the source performs no
validation of `max_tokens` and `overlap`, so the loop has no error
outcome.  The position `i` is a Python integer (`Int`): the source lets
it go negative when `overlap > max_tokens`. -/
def chunkLoop (tokens : List Nat) (maxT overlap : Nat) :
    Nat → Int → List (List Nat) → Option (List (List Nat))
  | 0, _, _ => none
  | fuel + 1, i, acc =>
    if i < (tokens.length : Int) then
      chunkLoop tokens maxT overlap fuel (i + ((maxT : Int) - (overlap : Int)))
        (acc ++ [pySlice tokens i (i + (maxT : Int))])
    else some acc

/-- `chunk_text` of `ingest.py`, stated on the token stream
`enc.encode(text)` (the tiktoken encoder is an external collaborator):
`i = 0; while i < len(tokens): chunks.append(tokens[i:i+max_tokens]);
i += max_tokens - overlap`.  A terminating configuration
(`overlap < max_tokens`) needs at most `len(tokens) + 1` guard
evaluations, so that much fuel is supplied; a `none` result therefore
means the source loop does not terminate within that bound. -/
def chunk_text (tokens : List Nat) (maxT overlap : Nat) : Option (List (List Nat)) :=
  chunkLoop tokens maxT overlap (tokens.length + 1) 0 []

/-- The token windows `tokens[n:n+maxT], tokens[n+stepN:...], ...` that the
chunking loop emits from position `n` onward, as a structurally
terminating recursion (meaningful for `stepN ≥ 1`; the `stepN = 0` branch
is never used by the theorems below). -/
def windowsFrom (tokens : List Nat) (maxT stepN n : Nat) : List (List Nat) :=
  if _h : stepN = 0 then []
  else if _h2 : n < tokens.length then
    ((tokens.drop n).take maxT) :: windowsFrom tokens maxT stepN (n + stepN)
  else []
termination_by tokens.length - n
decreasing_by simp_wf; omega

/-- The last `n` elements of a list (the whole list if it is shorter). -/
def takeLast {α : Type} (l : List α) (n : Nat) : List α :=
  l.drop (l.length - n)

/-- A Python slice with natural bounds `q` and `q + m` is a drop followed
by a take. -/
theorem pySlice_natCast {α : Type} (l : List α) (q m : Nat) :
    pySlice l (q : Int) ((q : Int) + (m : Int)) = (l.drop q).take m := by
  have hq : pyResolve l.length (q : Int) = min l.length q := by
    rw [pyResolve, if_neg (by omega)]
    omega
  have hb : pyResolve l.length ((q : Int) + (m : Int)) = min l.length (q + m) := by
    rw [pyResolve, if_neg (by omega)]
    omega
  rw [pySlice, hq, hb, List.drop_take]
  rcases le_or_lt q l.length with hle | hlt
  · rw [min_eq_right hle]
    apply List.take_eq_take.mpr
    simp [List.length_drop]
    omega
  · rw [min_eq_left (le_of_lt hlt)]
    rw [List.drop_eq_nil_of_le (by simp), List.drop_eq_nil_of_le (by omega)]
    simp

/-- The fueled chunking loop, on a valid configuration and with enough
fuel, computes exactly the windows from its current position. -/
theorem chunkLoop_eq_windowsFrom (tokens : List Nat) (maxT overlap : Nat)
    (h : overlap < maxT) :
    ∀ (fuel n : Nat) (acc : List (List Nat)), tokens.length - n < fuel →
      chunkLoop tokens maxT overlap fuel (n : Int) acc
        = some (acc ++ windowsFrom tokens maxT (maxT - overlap) n) := by
  intro fuel
  induction fuel with
  | zero => intro n acc hf; omega
  | succ fuel ih =>
    intro n acc hf
    rw [chunkLoop]
    by_cases hn : n < tokens.length
    · rw [if_pos (by exact_mod_cast hn)]
      have hstep : (n : Int) + ((maxT : Int) - (overlap : Int))
          = ((n + (maxT - overlap) : Nat) : Int) := by
        push_cast
        omega
      rw [hstep, pySlice_natCast,
        ih (n + (maxT - overlap)) (acc ++ [(tokens.drop n).take maxT]) (by omega)]
      conv_rhs => rw [windowsFrom]
      rw [dif_neg (by omega), dif_pos hn]
      simp
    · rw [if_neg (by exact_mod_cast hn)]
      conv_rhs => rw [windowsFrom]
      rw [dif_neg (by omega), dif_neg hn]
      simp

/-- On a valid configuration, `chunk_text` terminates and returns the
windows from position 0. -/
theorem chunk_text_eq (tokens : List Nat) (maxT overlap : Nat)
    (h : overlap < maxT) :
    chunk_text tokens maxT overlap
      = some (windowsFrom tokens maxT (maxT - overlap) 0) := by
  have key := chunkLoop_eq_windowsFrom tokens maxT overlap h
    (tokens.length + 1) 0 [] (by omega)
  simpa [chunk_text] using key

/-- C1: the spec demands that `chunk_text` reject `overlap ≥ max_tokens`
with a ConfigurationError before entering the loop.  The source performs
no such validation: on the one-token stream `[0]` with
`max_tokens = overlap = 500` the advance `max_tokens - overlap` is zero,
the loop guard holds after every number of guard evaluations (the fueled
loop returns `none` at every fuel, from any accumulator), and in
particular `chunk_text` itself fails to terminate within its fuel bound.
No error value exists anywhere in the code path, so the configuration is
never rejected. -/
theorem chunk_text_overlap_eq_max_never_terminates :
    (∀ (fuel : Nat) (acc : List (List Nat)),
      chunkLoop [0] 500 500 fuel 0 acc = none)
    ∧ chunk_text [0] 500 500 = none := by
  have key : ∀ (fuel : Nat) (acc : List (List Nat)),
      chunkLoop [0] 500 500 fuel 0 acc = none := by
    intro fuel
    induction fuel with
    | zero => intro acc; rfl
    | succ fuel ih =>
      intro acc
      rw [chunkLoop, if_pos (by decide)]
      norm_num
      exact ih _
  exact ⟨key, key 2 []⟩

/-- Ceiling-division step: one more window adds one to the count. -/
theorem ceil_div_step (s r : Nat) (hs : 1 ≤ s) (hr : 1 ≤ r) :
    (r + s - 1) / s = (r - s + s - 1) / s + 1 := by
  rcases le_or_lt r s with hc | hc
  · have h1 : r - s = 0 := by omega
    have h3 : r + s - 1 = (r - 1) + s := by omega
    have h4 : (0 + s - 1) / s = 0 := Nat.div_eq_of_lt (by omega)
    rw [h1, h3, Nat.add_div_right _ hs, h4,
      Nat.div_eq_of_lt (show r - 1 < s by omega)]
  · have h3 : r + s - 1 = (r - s + s - 1) + s := by omega
    rw [h3, Nat.add_div_right _ hs]

/-- The number of windows from position `n` is the ceiling of the
remaining length divided by the advance. -/
theorem windowsFrom_length (tokens : List Nat) (maxT stepN : Nat)
    (hs : 1 ≤ stepN) (n : Nat) :
    (windowsFrom tokens maxT stepN n).length
      = (tokens.length - n + stepN - 1) / stepN := by
  rw [windowsFrom, dif_neg (by omega)]
  by_cases hn : n < tokens.length
  · rw [dif_pos hn, List.length_cons,
      windowsFrom_length tokens maxT stepN hs (n + stepN)]
    have he : tokens.length - (n + stepN) = tokens.length - n - stepN := by
      omega
    rw [he]
    exact (ceil_div_step stepN (tokens.length - n) hs (by omega)).symm
  · rw [dif_neg hn, List.length_nil]
    have he : tokens.length - n = 0 := by omega
    rw [he]
    exact (Nat.div_eq_of_lt (by omega)).symm
termination_by tokens.length - n
decreasing_by simp_wf; omega

/-- The `j`-th window from position `n` is `tokens[n + j*stepN :][:maxT]`. -/
theorem windowsFrom_getD (tokens : List Nat) (maxT stepN : Nat)
    (hs : 1 ≤ stepN) :
    ∀ (j n : Nat), j < (windowsFrom tokens maxT stepN n).length →
      (windowsFrom tokens maxT stepN n).getD j []
        = (tokens.drop (n + j * stepN)).take maxT := by
  intro j
  induction j with
  | zero =>
    intro n hj
    rw [windowsFrom, dif_neg (by omega)] at hj ⊢
    by_cases hn : n < tokens.length
    · rw [dif_pos hn] at hj ⊢
      simp
    · rw [dif_neg hn] at hj
      simp at hj
  | succ j ih =>
    intro n hj
    rw [windowsFrom, dif_neg (by omega)] at hj ⊢
    by_cases hn : n < tokens.length
    · rw [dif_pos hn] at hj ⊢
      rw [List.getD_cons_succ, ih (n + stepN) (by simpa using hj)]
      have he : n + stepN + j * stepN = n + (j + 1) * stepN := by ring
      rw [he]
    · rw [dif_neg hn] at hj
      simp at hj

/-- Every window is a `take maxT`, hence at most `maxT` tokens long. -/
theorem windowsFrom_length_le (tokens : List Nat) (maxT stepN n : Nat) :
    ∀ w ∈ windowsFrom tokens maxT stepN n, w.length ≤ maxT := by
  intro w hw
  rw [windowsFrom] at hw
  by_cases h0 : stepN = 0
  · rw [dif_pos h0] at hw
    simp at hw
  · rw [dif_neg h0] at hw
    by_cases hn : n < tokens.length
    · rw [dif_pos hn] at hw
      rcases List.mem_cons.mp hw with h | h
      · rw [h]
        exact le_trans (List.length_take_le maxT _) (le_refl maxT)
      · exact windowsFrom_length_le tokens maxT stepN (n + stepN) w h
    · rw [dif_neg hn] at hw
      simp at hw
termination_by tokens.length - n
decreasing_by simp_wf; omega

/-- C6: on a valid configuration the chunking loop of `chunk_text`
terminates (the fueled loop completes within its fuel bound) after
exactly `ceil(len(tokens) / (max_tokens - overlap))` iterations — one
window is emitted per iteration, each advancing the window start by
`max_tokens - overlap` — and zero iterations on an empty stream. -/
theorem chunk_text_terminates_ceil (tokens : List Nat) (maxT overlap : Nat)
    (h : overlap < maxT) :
    chunk_text tokens maxT overlap
        = some (windowsFrom tokens maxT (maxT - overlap) 0)
      ∧ (windowsFrom tokens maxT (maxT - overlap) 0).length
        = (tokens.length + (maxT - overlap) - 1) / (maxT - overlap) := by
  refine ⟨chunk_text_eq tokens maxT overlap h, ?_⟩
  have key := windowsFrom_length tokens maxT (maxT - overlap) (by omega) 0
  simpa using key

/-- Witness for C6: five tokens, `max_tokens = 3`, `overlap = 1` give
`ceil(5/2) = 3` windows. -/
theorem chunk_text_terminates_ceil_witness :
    chunk_text [0, 1, 2, 3, 4] 3 1
        = some (windowsFrom [0, 1, 2, 3, 4] 3 (3 - 1) 0)
      ∧ (windowsFrom [0, 1, 2, 3, 4] 3 (3 - 1) 0).length
        = (([0, 1, 2, 3, 4] : List Nat).length + (3 - 1) - 1) / (3 - 1) :=
  chunk_text_terminates_ceil [0, 1, 2, 3, 4] 3 1 (by decide)

/-- C7: every window `chunk_text` produces holds at most `max_tokens`
tokens. -/
theorem chunk_text_window_le_max (tokens : List Nat) (maxT overlap : Nat)
    (ws : List (List Nat)) (h : overlap < maxT)
    (hws : chunk_text tokens maxT overlap = some ws) :
    ∀ w ∈ ws, w.length ≤ maxT := by
  rw [chunk_text_eq tokens maxT overlap h] at hws
  have hws' : ws = windowsFrom tokens maxT (maxT - overlap) 0 := by
    injection hws with hh
    exact hh.symm
  rw [hws']
  exact windowsFrom_length_le tokens maxT (maxT - overlap) 0

/-- Witness for C7: the three windows of `[0, 1, 2]` at
`max_tokens = 2`, `overlap = 1` all hold at most two tokens. -/
theorem chunk_text_window_le_max_witness :
    ([0, 1] : List Nat).length ≤ 2 ∧ ([1, 2] : List Nat).length ≤ 2
    ∧ ([2] : List Nat).length ≤ 2 :=
  ⟨chunk_text_window_le_max [0, 1, 2] 2 1 [[0, 1], [1, 2], [2]] (by decide)
      (by decide) [0, 1] (by decide),
    chunk_text_window_le_max [0, 1, 2] 2 1 [[0, 1], [1, 2], [2]] (by decide)
      (by decide) [1, 2] (by decide),
    chunk_text_window_le_max [0, 1, 2] 2 1 [[0, 1], [1, 2], [2]] (by decide)
      (by decide) [2] (by decide)⟩

/-- Counterexample to C5 as stated: on the token stream `[0, 1]` with
`max_tokens = 3` and `overlap = 2` the code produces the windows
`[0, 1]` and `[1]`; the last two tokens of window 0 are `[0, 1]` while
the first two tokens of window 1 are just `[1]`, so the overlap
invariant fails when window 0 is truncated by the end of the stream. -/
theorem chunk_text_overlap_counterexample :
    chunk_text [0, 1] 3 2 = some [[0, 1], [1]]
    ∧ takeLast ([0, 1] : List Nat) 2 ≠ ([1] : List Nat).take 2 := by
  constructor
  · decide
  · decide

/-- C5 (amended): whenever window `i` holds exactly `max_tokens` tokens
(i.e. it is not the final, truncated window) and window `i+1` exists, the
last `overlap` tokens of window `i` equal the first `overlap` tokens of
window `i+1`. -/
theorem chunk_text_overlap_inv (tokens : List Nat) (maxT overlap j : Nat)
    (ws : List (List Nat)) (h : overlap < maxT)
    (hws : chunk_text tokens maxT overlap = some ws)
    (hj : j + 1 < ws.length)
    (hfull : (ws.getD j []).length = maxT) :
    takeLast (ws.getD j []) overlap = (ws.getD (j + 1) []).take overlap := by
  rw [chunk_text_eq tokens maxT overlap h] at hws
  have hws' : ws = windowsFrom tokens maxT (maxT - overlap) 0 := by
    injection hws with hh
    exact hh.symm
  subst hws'
  have hs : 1 ≤ maxT - overlap := by omega
  have hgj := windowsFrom_getD tokens maxT (maxT - overlap) hs j 0 (by omega)
  have hgj1 := windowsFrom_getD tokens maxT (maxT - overlap) hs (j + 1) 0 hj
  rw [hgj] at hfull ⊢
  rw [hgj1, takeLast, hfull, List.drop_take, List.drop_drop, List.take_take]
  have e1 : maxT - (maxT - overlap) = overlap := by omega
  have e2 : min overlap maxT = overlap := min_eq_left (by omega)
  have e3 : 0 + j * (maxT - overlap) + (maxT - overlap)
      = 0 + (j + 1) * (maxT - overlap) := by ring
  rw [e1, e2, e3]

/-- Witness for C5: with `max_tokens = 2`, `overlap = 1` on `[0, 1, 2]`,
window 0 is full and its last token equals the first token of
window 1. -/
theorem chunk_text_overlap_inv_witness :
    takeLast (([[0, 1], [1, 2], [2]] : List (List Nat)).getD 0 []) 1
      = (([[0, 1], [1, 2], [2]] : List (List Nat)).getD 1 []).take 1 :=
  chunk_text_overlap_inv [0, 1, 2] 2 1 0 [[0, 1], [1, 2], [2]] (by decide)
    (by decide) (by decide) (by decide)

/-- `embed_batches` of `ingest.py`: `for i in range(0, n, batch_size):
all_vecs.extend(embedder(texts[i:i+batch_size]))`, where the external
embedder collaborator (`client.embeddings.create`) is assumed to return
one vector per input string of each batch, in order — it is abstracted
as `f` applied elementwise to the batch.  `range` with step 0 raises in
Python, so the `batchSize = 0` branch is a dead stub never covered by a
theorem. -/
def embed_batches {α V : Type} (f : α → V) (batchSize : Nat) :
    List α → List V
  | [] => []
  | t :: ts =>
    if _h : batchSize = 0 then []
    else ((t :: ts).take batchSize).map f
      ++ embed_batches f batchSize ((t :: ts).drop batchSize)
termination_by l => l.length
decreasing_by
  simp_wf
  omega

/-- C4: for every input list and batch size at least 1, assuming the
embedder returns one vector per input of each batch in order,
`embed_batches` returns one vector per input text overall, index-aligned
across batch boundaries — it equals the elementwise map, so the result
has the length of the input and its `i`-th entry is the embedding of
`texts[i]`. -/
theorem embed_batches_aligned {α V : Type} (f : α → V) (batchSize : Nat)
    (texts : List α) (h : 1 ≤ batchSize) :
    embed_batches f batchSize texts = texts.map f := by
  rcases texts with _ | ⟨t, ts⟩
  · simp only [embed_batches, List.map_nil]
  · simp only [embed_batches]
    rw [dif_neg (by omega),
      embed_batches_aligned f batchSize ((t :: ts).drop batchSize) h,
      ← List.map_append, List.take_append_drop]
termination_by texts.length
decreasing_by
  simp_wf
  omega

/-- Witness for C4: five strings at batch size 2 (three batches) embed to
the per-string results, in order. -/
theorem embed_batches_aligned_witness :
    embed_batches String.length 2 ["a", "bb", "ccc", "dddd", "e"]
      = ["a", "bb", "ccc", "dddd", "e"].map String.length :=
  embed_batches_aligned String.length 2 ["a", "bb", "ccc", "dddd", "e"]
    (by decide)

/-- A Python metadata value as stored by the pipeline: Chroma metadata
maps hold strings (`source`) and integers (`page`). -/
inductive PyVal where
  | s (v : String)
  | i (v : Int)
deriving DecidableEq

/-- A Chroma metadata dict, embedded as an association list. -/
abbrev Meta := List (String × PyVal)

/-- The `(source, page)` dedup key type: `m.get` returns `None` for a
missing key, hence the options. -/
abbrev CandKey := Option PyVal × Option PyVal

/-- Python `m.get(key)`. -/
def metaGet (m : Meta) (key : String) : Option PyVal :=
  (m.find? (fun p => p.1 == key)).map (fun p => p.2)

/-- One retrieval candidate as walked by `retrieve` in `answer_once.py`:
an element of `zip(docs, metas, ids)`.  Documents and metadata can be
`None` in the store response, hence the options. -/
structure Cand where
  doc : Option String
  meta : Option Meta
  id : String
deriving DecidableEq

/-- The `(m.get("source"), m.get("page"))` dedup key of a metadata
dict. -/
def candKey (m : Meta) : CandKey := (metaGet m "source", metaGet m "page")

/-- Python `zip` over the three aligned store-response lists: truncates
to the shortest. -/
def zip3 : List (Option String) → List (Option Meta) → List String → List Cand
  | d :: ds, m :: ms, i :: ids => ⟨d, m, i⟩ :: zip3 ds ms ids
  | _, _, _ => []

/-- The dedup loop of `retrieve` in `answer_once.py`: walk candidates in
store order; skip any with a falsy document (`None` or empty) or falsy
metadata (`None` or empty dict); skip any whose `(source, page)` key was
already taken; otherwise append to the three aligned outputs and stop as
soon as `k` results are collected. -/
def retrieveLoop (k : Nat) :
    List Cand → List CandKey → List String → List Meta → List String →
      List String × List Meta × List String
  | [], _, outD, outM, outI => (outD, outM, outI)
  | c :: rest, seen, outD, outM, outI =>
    match c.doc, c.meta with
    | some d, some m =>
      if d = "" ∨ m = ([] : Meta) then
        retrieveLoop k rest seen outD outM outI
      else if candKey m ∈ seen then
        retrieveLoop k rest seen outD outM outI
      else if (outD ++ [d]).length = k then
        (outD ++ [d], outM ++ [m], outI ++ [c.id])
      else
        retrieveLoop k rest (candKey m :: seen)
          (outD ++ [d]) (outM ++ [m]) (outI ++ [c.id])
    | _, _ => retrieveLoop k rest seen outD outM outI

/-- The post-processing of `retrieve(q, k)` in `answer_once.py`, on the
candidate lists returned by the vector store for the query embedding
(the embedding call and `col.query` are external collaborators). -/
def retrieve (k : Nat) (docs : List (Option String))
    (metas : List (Option Meta)) (ids : List String) :
    List String × List Meta × List String :=
  retrieveLoop k (zip3 docs metas ids) [] [] [] []

/-- The candidates the dedup walk keeps when no `k`-truncation occurs:
the first valid occurrence of each `(source, page)` key, in order. -/
def keptCands : List Cand → List CandKey → List Cand
  | [], _ => []
  | c :: rest, seen =>
    match c.doc, c.meta with
    | some d, some m =>
      if d = "" ∨ m = ([] : Meta) then keptCands rest seen
      else if candKey m ∈ seen then keptCands rest seen
      else c :: keptCands rest (candKey m :: seen)
    | _, _ => keptCands rest seen

/-- The document of a kept candidate. -/
def candDoc (c : Cand) : String := c.doc.getD ""

/-- The metadata of a kept candidate. -/
def candMeta (c : Cand) : Meta := c.meta.getD []

/-- The id of a kept candidate. -/
def candId (c : Cand) : String := c.id

/-- When at most `k - |out|` candidates remain, the stop-at-`k` break
never cuts anything off: the loop returns exactly the first valid
occurrence of each key. -/
theorem retrieveLoop_no_break (k : Nat) (cands : List Cand) :
    ∀ (seen : List CandKey) (outD : List String) (outM : List Meta)
      (outI : List String),
      outD.length + cands.length ≤ k →
      retrieveLoop k cands seen outD outM outI
        = (outD ++ (keptCands cands seen).map candDoc,
           outM ++ (keptCands cands seen).map candMeta,
           outI ++ (keptCands cands seen).map candId) := by
  induction cands with
  | nil =>
    intro seen outD outM outI hk
    simp [retrieveLoop, keptCands]
  | cons c rest ih =>
    intro seen outD outM outI hk
    have hk' : outD.length + rest.length ≤ k := by
      simp at hk
      omega
    rcases c with ⟨d0, m0, cid⟩
    rcases d0 with _ | d
    · simp only [retrieveLoop, keptCands]
      exact ih seen outD outM outI hk'
    rcases m0 with _ | m
    · simp only [retrieveLoop, keptCands]
      exact ih seen outD outM outI hk'
    simp only [retrieveLoop, keptCands]
    by_cases hval : d = "" ∨ m = ([] : Meta)
    · rw [if_pos hval, if_pos hval]
      exact ih seen outD outM outI hk'
    rw [if_neg hval, if_neg hval]
    by_cases hseen : candKey m ∈ seen
    · rw [if_pos hseen, if_pos hseen]
      exact ih seen outD outM outI hk'
    rw [if_neg hseen, if_neg hseen]
    by_cases hbreak : (outD ++ [d]).length = k
    · rw [if_pos hbreak]
      have hrest : rest = [] := by
        have hlen1 : (outD ++ [d]).length = outD.length + 1 := by simp
        have hlen2 : (Cand.mk (some d) (some m) cid :: rest).length
            = rest.length + 1 := by simp
        have : rest.length = 0 := by omega
        exact List.length_eq_zero.mp this
      subst hrest
      simp [keptCands, hval, hseen, candDoc, candMeta, candId]
    · rw [if_neg hbreak]
      rw [ih (candKey m :: seen) (outD ++ [d]) (outM ++ [m]) (outI ++ [cid])
        (by
          have hc : (Cand.mk (some d) (some m) cid :: rest).length
              = rest.length + 1 := by simp
          have he : (outD ++ [d]).length = outD.length + 1 := by simp
          omega)]
      simp [candDoc, candMeta, candId]

/-- The three outputs of the dedup loop stay aligned, and their common
length is the unique-candidate count clipped at `k`. -/
theorem retrieveLoop_length (k : Nat) (cands : List Cand) :
    ∀ (seen : List CandKey) (outD : List String) (outM : List Meta)
      (outI : List String),
      outD.length = outM.length → outM.length = outI.length →
      outD.length < k →
      (retrieveLoop k cands seen outD outM outI).1.length
          = (retrieveLoop k cands seen outD outM outI).2.1.length
        ∧ (retrieveLoop k cands seen outD outM outI).2.1.length
          = (retrieveLoop k cands seen outD outM outI).2.2.length
        ∧ (retrieveLoop k cands seen outD outM outI).1.length
          = min k (outD.length + (keptCands cands seen).length) := by
  induction cands with
  | nil =>
    intro seen outD outM outI h1 h2 hlt
    simp only [retrieveLoop, keptCands]
    refine ⟨h1, h2, ?_⟩
    simp
    omega
  | cons c rest ih =>
    intro seen outD outM outI h1 h2 hlt
    rcases c with ⟨d0, m0, cid⟩
    rcases d0 with _ | d
    · simp only [retrieveLoop, keptCands]
      exact ih seen outD outM outI h1 h2 hlt
    rcases m0 with _ | m
    · simp only [retrieveLoop, keptCands]
      exact ih seen outD outM outI h1 h2 hlt
    simp only [retrieveLoop, keptCands]
    by_cases hval : d = "" ∨ m = ([] : Meta)
    · rw [if_pos hval, if_pos hval]
      exact ih seen outD outM outI h1 h2 hlt
    rw [if_neg hval, if_neg hval]
    by_cases hseen : candKey m ∈ seen
    · rw [if_pos hseen, if_pos hseen]
      exact ih seen outD outM outI h1 h2 hlt
    rw [if_neg hseen, if_neg hseen]
    by_cases hbreak : (outD ++ [d]).length = k
    · rw [if_pos hbreak]
      simp at hbreak ⊢
      refine ⟨by omega, by omega, by omega⟩
    · rw [if_neg hbreak]
      have key := ih (candKey m :: seen) (outD ++ [d]) (outM ++ [m])
        (outI ++ [cid]) (by simp; omega) (by simp; omega)
        (by simp at hbreak ⊢; omega)
      rcases key with ⟨k1, k2, k3⟩
      refine ⟨k1, k2, ?_⟩
      rw [k3]
      simp
      omega

/-- C2: over any candidate sequence the store can return (the store is
queried with `n_results = k`, so at most `k` candidates come back, which
the hypothesis records), `retrieve` keeps exactly the first candidate
bearing each `(source, page)` key and discards every later candidate
with the same key; and in particular on candidates keyed
`[(A,1), (A,1), (A,2), (B,1)]` with `k = 3` — where the second
candidate's text differs from the first's — the output carries exactly
the keys `[(A,1), (A,2), (B,1)]`. -/
theorem retrieve_dedup_first_occurrence :
    (∀ (docs : List (Option String)) (metas : List (Option Meta))
        (ids : List String) (k : Nat),
        (zip3 docs metas ids).length ≤ k →
        retrieve k docs metas ids
          = ((keptCands (zip3 docs metas ids) []).map candDoc,
             (keptCands (zip3 docs metas ids) []).map candMeta,
             (keptCands (zip3 docs metas ids) []).map candId))
    ∧ retrieve 3
        [some "text A1", some "other text A1", some "text A2", some "text B1"]
        [some [("source", PyVal.s "A"), ("page", PyVal.i 1)],
         some [("source", PyVal.s "A"), ("page", PyVal.i 1)],
         some [("source", PyVal.s "A"), ("page", PyVal.i 2)],
         some [("source", PyVal.s "B"), ("page", PyVal.i 1)]]
        ["id1", "id2", "id3", "id4"]
      = (["text A1", "text A2", "text B1"],
         [[("source", PyVal.s "A"), ("page", PyVal.i 1)],
          [("source", PyVal.s "A"), ("page", PyVal.i 2)],
          [("source", PyVal.s "B"), ("page", PyVal.i 1)]],
         ["id1", "id3", "id4"]) := by
  constructor
  · intro docs metas ids k hk
    have key := retrieveLoop_no_break k (zip3 docs metas ids) [] [] [] []
      (by simpa using hk)
    simpa [retrieve] using key
  · decide

/-- Witness for C2: two candidates sharing the key `(A, 1)` at `k = 5`;
only the first survives. -/
theorem retrieve_dedup_first_occurrence_witness :
    retrieve 5 [some "x", some "y"]
        [some [("source", PyVal.s "A"), ("page", PyVal.i 1)],
         some [("source", PyVal.s "A"), ("page", PyVal.i 1)]]
        ["i1", "i2"]
      = ((keptCands (zip3 [some "x", some "y"]
            [some [("source", PyVal.s "A"), ("page", PyVal.i 1)],
             some [("source", PyVal.s "A"), ("page", PyVal.i 1)]]
            ["i1", "i2"]) []).map candDoc,
         (keptCands (zip3 [some "x", some "y"]
            [some [("source", PyVal.s "A"), ("page", PyVal.i 1)],
             some [("source", PyVal.s "A"), ("page", PyVal.i 1)]]
            ["i1", "i2"]) []).map candMeta,
         (keptCands (zip3 [some "x", some "y"]
            [some [("source", PyVal.s "A"), ("page", PyVal.i 1)],
             some [("source", PyVal.s "A"), ("page", PyVal.i 1)]]
            ["i1", "i2"]) []).map candId) :=
  retrieve_dedup_first_occurrence.1
    [some "x", some "y"]
    [some [("source", PyVal.s "A"), ("page", PyVal.i 1)],
     some [("source", PyVal.s "A"), ("page", PyVal.i 1)]]
    ["i1", "i2"] 5 (by decide)

/-- C3: for every candidate response and every `k ≥ 1`, `retrieve`
returns three index-aligned sequences of equal length at most `k`; the
common length is strictly below `k` exactly when fewer than `k` unique
`(source, page)` candidates with a non-missing (truthy) document and
metadata occur among the candidates. -/
theorem retrieve_lengths_min_k (docs : List (Option String))
    (metas : List (Option Meta)) (ids : List String) (k : Nat)
    (hk : 1 ≤ k) :
    (retrieve k docs metas ids).1.length
        = (retrieve k docs metas ids).2.1.length
    ∧ (retrieve k docs metas ids).2.1.length
        = (retrieve k docs metas ids).2.2.length
    ∧ (retrieve k docs metas ids).1.length ≤ k
    ∧ ((retrieve k docs metas ids).1.length < k
        ↔ (keptCands (zip3 docs metas ids) []).length < k) := by
  have key := retrieveLoop_length k (zip3 docs metas ids) [] [] [] []
    rfl rfl (by simpa using hk)
  rcases key with ⟨h1, h2, h3⟩
  rw [retrieve]
  refine ⟨h1, h2, ?_, ?_⟩
  · rw [h3]
    simp only [List.length_nil, zero_add]
    omega
  · rw [h3]
    simp only [List.length_nil, zero_add]
    omega

/-- Witness for C3: one unique valid candidate at `k = 2`: all outputs
have length 1, which is below `k` because only one unique page
exists. -/
theorem retrieve_lengths_min_k_witness :
    (retrieve 2 [some "x"]
        [some [("source", PyVal.s "A"), ("page", PyVal.i 1)]] ["i1"]).1.length
        = (retrieve 2 [some "x"]
            [some [("source", PyVal.s "A"), ("page", PyVal.i 1)]] ["i1"]).2.1.length
    ∧ (retrieve 2 [some "x"]
        [some [("source", PyVal.s "A"), ("page", PyVal.i 1)]] ["i1"]).2.1.length
        = (retrieve 2 [some "x"]
            [some [("source", PyVal.s "A"), ("page", PyVal.i 1)]] ["i1"]).2.2.length
    ∧ (retrieve 2 [some "x"]
        [some [("source", PyVal.s "A"), ("page", PyVal.i 1)]] ["i1"]).1.length ≤ 2
    ∧ ((retrieve 2 [some "x"]
        [some [("source", PyVal.s "A"), ("page", PyVal.i 1)]] ["i1"]).1.length < 2
        ↔ (keptCands (zip3 [some "x"]
            [some [("source", PyVal.s "A"), ("page", PyVal.i 1)]] ["i1"]) []).length < 2) :=
  retrieve_lengths_min_k [some "x"]
    [some [("source", PyVal.s "A"), ("page", PyVal.i 1)]] ["i1"] 2 (by decide)

/-- The whitespace class of Python's regex `\s` over `str` (ASCII
whitespace, the C1 separators, NEL, NBSP and the Unicode space
separators). -/
def pyWhitespace : List Char :=
  [' ', '\t', '\n', '\r', '\x0b', '\x0c',
   '\x1c', '\x1d', '\x1e', '\x1f', '\x85', '\xa0',
   ' ', ' ', ' ', ' ', ' ', ' ', ' ',
   ' ', ' ', ' ', ' ', ' ',
   ' ', ' ', ' ', ' ', '　']

/-- Whether a character matches `\s`. -/
def pyIsSpace (c : Char) : Bool := pyWhitespace.contains c

/-- Embedding of `re.sub(r"\s+", " ", s)`: each maximal run of
whitespace becomes a single blank. -/
def collapseWS : List Char → List Char
  | [] => []
  | c :: cs =>
    if pyIsSpace c then ' ' :: collapseWS (cs.dropWhile pyIsSpace)
    else c :: collapseWS cs
termination_by l => l.length
decreasing_by
  all_goals
    have key := (List.dropWhile_suffix (l := cs) pyIsSpace).sublist.length_le
    simp_wf
    try omega

/-- Embedding of Python `str.strip()`: remove whitespace from both
ends. -/
def stripWS (l : List Char) : List Char :=
  ((l.dropWhile pyIsSpace).reverse.dropWhile pyIsSpace).reverse

/-- `clean` of `ingest.py`: `s = re.sub(r"\s+", " ", s); return
s.strip()`, on the character list of the string. -/
def clean (l : List Char) : List Char := stripWS (collapseWS l)

/-- `clean` on Lean strings. -/
def cleanStr (s : String) : String := String.mk (clean s.data)

/-- The first element surviving a `dropWhile` fails the predicate. -/
theorem dropWhile_first_false {α : Type} (p : α → Bool) :
    ∀ (l : List α) {c : α} {cs : List α}, l.dropWhile p = c :: cs →
      p c = false := by
  intro l
  induction l with
  | nil =>
    intro c cs h
    simp [List.dropWhile] at h
  | cons a as ih =>
    intro c cs h
    rw [List.dropWhile_cons] at h
    by_cases hp : p a = true
    · rw [if_pos hp] at h
      exact ih h
    · rw [if_neg hp] at h
      cases h
      simpa using hp

/-- A list whose head fails the predicate is untouched by
`dropWhile`. -/
theorem dropWhile_eq_self_of_head {α : Type} (p : α → Bool) (l : List α)
    (h : ∀ c, l.head? = some c → p c = false) : l.dropWhile p = l := by
  rcases l with _ | ⟨a, as⟩
  · rfl
  · rw [List.dropWhile_cons, if_neg (by simp [h a rfl])]

/-- A nonempty suffix has the same last element as the whole list. -/
theorem getLast?_of_suffix {α : Type} {l₁ l₂ : List α} (h : l₁ <:+ l₂)
    (hne : l₁ ≠ []) : l₁.getLast? = l₂.getLast? := by
  obtain ⟨t, rfl⟩ := h
  exact (List.getLast?_append_of_ne_nil t hne).symm

/-- A chain restricted to a suffix is still a chain. -/
theorem chain'_of_suffix {α : Type} {R : α → α → Prop} {l₁ l₂ : List α}
    (h : l₁ <:+ l₂) (hc : List.Chain' R l₂) : List.Chain' R l₁ := by
  obtain ⟨t, rfl⟩ := h
  exact (List.chain'_append.mp hc).2.1

/-- No two adjacent characters are both whitespace. -/
def noTwoSpaces (a b : Char) : Prop :=
  ¬(pyIsSpace a = true ∧ pyIsSpace b = true)

/-- Dropping a prefix never lengthens a list. -/
theorem length_dropWhile_le {α : Type} (p : α → Bool) (l : List α) :
    (l.dropWhile p).length ≤ l.length :=
  (List.dropWhile_suffix p).sublist.length_le

/-- Every whitespace character surviving the collapse is the blank the
substitution inserted. -/
theorem collapseWS_space_mem (l : List Char) :
    ∀ c ∈ collapseWS l, pyIsSpace c = true → c = ' ' := by
  rcases l with _ | ⟨a, as⟩
  · intro c hc
    simp [collapseWS] at hc
  · intro c hc hsp
    simp only [collapseWS] at hc
    by_cases ha : pyIsSpace a = true
    · rw [if_pos ha] at hc
      rcases List.mem_cons.mp hc with h | h
      · exact h
      · exact collapseWS_space_mem (as.dropWhile pyIsSpace) c h hsp
    · rw [if_neg ha] at hc
      rcases List.mem_cons.mp hc with h | h
      · subst h
        exact absurd hsp ha
      · exact collapseWS_space_mem as c h hsp
termination_by l.length
decreasing_by
  all_goals simp_wf
  all_goals exact Nat.lt_succ_of_le (length_dropWhile_le pyIsSpace _)

/-- Collapsing past a non-whitespace head keeps it. -/
theorem collapseWS_cons_not_space (a : Char) (as : List Char)
    (ha : ¬ pyIsSpace a = true) :
    collapseWS (a :: as) = a :: collapseWS as := by
  simp only [collapseWS]
  rw [if_neg ha]

/-- The collapse never leaves two adjacent whitespace characters. -/
theorem collapseWS_chain (l : List Char) :
    List.Chain' noTwoSpaces (collapseWS l) := by
  rcases l with _ | ⟨a, as⟩
  · simp [collapseWS]
  · by_cases ha : pyIsSpace a = true
    · simp only [collapseWS]
      rw [if_pos ha]
      have hrec := collapseWS_chain (as.dropWhile pyIsSpace)
      rcases hrest : collapseWS (as.dropWhile pyIsSpace) with _ | ⟨b, bs⟩
      · simp
      · rw [hrest] at hrec
        rw [List.chain'_cons]
        refine ⟨?_, hrec⟩
        rintro ⟨_, hb⟩
        rcases hr : as.dropWhile pyIsSpace with _ | ⟨r, rs⟩
        · rw [hr] at hrest
          simp [collapseWS] at hrest
        · have hpr : pyIsSpace r = false := dropWhile_first_false pyIsSpace as hr
          rw [hr, collapseWS_cons_not_space r rs (by simp [hpr])] at hrest
          cases hrest
          simp [hpr] at hb
    · rw [collapseWS_cons_not_space a as ha]
      have hrec := collapseWS_chain as
      rcases hrest : collapseWS as with _ | ⟨b, bs⟩
      · simp
      · rw [hrest] at hrec
        rw [List.chain'_cons]
        exact ⟨fun hand => ha hand.1, hrec⟩
termination_by l.length
decreasing_by
  all_goals simp_wf
  all_goals exact Nat.lt_succ_of_le (length_dropWhile_le pyIsSpace _)

/-- On a list already in collapsed form — every whitespace is a blank
and no two are adjacent — the collapse is the identity. -/
theorem collapseWS_eq_self : ∀ (l : List Char),
    (∀ c ∈ l, pyIsSpace c = true → c = ' ') →
    List.Chain' noTwoSpaces l →
    collapseWS l = l := by
  intro l
  induction l with
  | nil =>
    intro _ _
    simp [collapseWS]
  | cons a as ih =>
    intro h1 h2
    by_cases ha : pyIsSpace a = true
    · have ha' : a = ' ' := h1 a (by simp) ha
      simp only [collapseWS]
      rw [if_pos ha]
      have hdrop : as.dropWhile pyIsSpace = as := by
        rcases as with _ | ⟨b, bs⟩
        · rfl
        · have hab : noTwoSpaces a b := (List.chain'_cons.mp h2).1
          have hb : ¬ pyIsSpace b = true := fun hb' => hab ⟨ha, hb'⟩
          rw [List.dropWhile_cons, if_neg (by simpa using hb)]
      rw [hdrop, ih (fun c hc hsp => h1 c (by simp [hc]) hsp) h2.tail, ha']
    · rw [collapseWS_cons_not_space a as ha,
        ih (fun c hc hsp => h1 c (by simp [hc]) hsp) h2.tail]

/-- The head of a stripped list is not whitespace. -/
theorem stripWS_head (l : List Char) (c : Char)
    (h : (stripWS l).head? = some c) : pyIsSpace c = false := by
  rw [stripWS, List.head?_reverse] at h
  have hvne : (l.dropWhile pyIsSpace).reverse.dropWhile pyIsSpace ≠ [] := by
    intro hveq
    rw [hveq] at h
    simp at h
  rw [getLast?_of_suffix
    (List.dropWhile_suffix (l := (l.dropWhile pyIsSpace).reverse) pyIsSpace)
    hvne, List.getLast?_reverse] at h
  rcases hu : l.dropWhile pyIsSpace with _ | ⟨c0, cs0⟩
  · rw [hu] at h
    simp at h
  · rw [hu] at h
    simp at h
    subst h
    exact dropWhile_first_false pyIsSpace l hu

/-- The last element of a stripped list is not whitespace. -/
theorem stripWS_getLast (l : List Char) (c : Char)
    (h : (stripWS l).getLast? = some c) : pyIsSpace c = false := by
  rw [stripWS, List.getLast?_reverse] at h
  rcases hv : (l.dropWhile pyIsSpace).reverse.dropWhile pyIsSpace
      with _ | ⟨c0, cs0⟩
  · rw [hv] at h
    simp at h
  · rw [hv] at h
    simp at h
    subst h
    exact dropWhile_first_false pyIsSpace _ hv

/-- Stripping a list whose two ends are not whitespace is the
identity. -/
theorem stripWS_eq_self (l : List Char)
    (hh : ∀ c, l.head? = some c → pyIsSpace c = false)
    (hl : ∀ c, l.getLast? = some c → pyIsSpace c = false) :
    stripWS l = l := by
  rw [stripWS, dropWhile_eq_self_of_head pyIsSpace l hh,
    dropWhile_eq_self_of_head pyIsSpace l.reverse
      (fun c hc => hl c (by rwa [List.head?_reverse] at hc)),
    List.reverse_reverse]

/-- Stripping only removes elements. -/
theorem stripWS_mem (l : List Char) (c : Char) (h : c ∈ stripWS l) :
    c ∈ l := by
  rw [stripWS, List.mem_reverse] at h
  have h2 := (List.dropWhile_suffix
    (l := (l.dropWhile pyIsSpace).reverse) pyIsSpace).sublist.subset h
  rw [List.mem_reverse] at h2
  exact (List.dropWhile_suffix (l := l) pyIsSpace).sublist.subset h2

/-- Stripping preserves the no-adjacent-whitespace invariant. -/
theorem stripWS_chain (l : List Char)
    (h : List.Chain' noTwoSpaces l) :
    List.Chain' noTwoSpaces (stripWS l) := by
  have hsym : ∀ (a b : Char), noTwoSpaces a b → noTwoSpaces b a :=
    fun a b hab hba => hab ⟨hba.2, hba.1⟩
  have c1 := chain'_of_suffix (List.dropWhile_suffix (l := l) pyIsSpace) h
  have c2 : List.Chain' noTwoSpaces (l.dropWhile pyIsSpace).reverse :=
    List.chain'_reverse.mpr (c1.imp hsym)
  have c3 := chain'_of_suffix
    (List.dropWhile_suffix (l := (l.dropWhile pyIsSpace).reverse) pyIsSpace) c2
  rw [stripWS]
  exact List.chain'_reverse.mpr (c3.imp hsym)

/-- One pass of `clean` yields a fixed point of `clean`. -/
theorem clean_clean (l : List Char) : clean (clean l) = clean l := by
  have hmem : ∀ c ∈ clean l, pyIsSpace c = true → c = ' ' := by
    intro c hc hsp
    exact collapseWS_space_mem l c (stripWS_mem (collapseWS l) c hc) hsp
  have hch : List.Chain' noTwoSpaces (clean l) :=
    stripWS_chain (collapseWS l) (collapseWS_chain l)
  show stripWS (collapseWS (clean l)) = clean l
  rw [collapseWS_eq_self (clean l) hmem hch]
  exact stripWS_eq_self (clean l)
    (fun c hc => stripWS_head (collapseWS l) c hc)
    (fun c hc => stripWS_getLast (collapseWS l) c hc)

/-- C10: `clean` is idempotent — its output holds no run of two or more
whitespace characters and no leading or trailing whitespace, so a second
application is the identity. -/
theorem clean_idempotent :
    ∀ s : String, cleanStr (cleanStr s) = cleanStr s := by
  intro s
  show String.mk (clean (String.mk (clean s.data)).data)
    = String.mk (clean s.data)
  have hd : (String.mk (clean s.data)).data = clean s.data := rfl
  rw [hd, clean_clean]

/-- `pdf_to_pages` of `ingest.py` from a given starting page number:
`for i, page in enumerate(reader.pages, start=1): yield i,
clean(page.extract_text() or "")`.  The pypdf extractor is the external
text-extraction collaborator, so the raw per-page texts are the
input. -/
def pdf_to_pages_from (n : Nat) : List (List Char) → List (Nat × List Char)
  | [] => []
  | r :: rest => (n, clean r) :: pdf_to_pages_from (n + 1) rest

/-- `pdf_to_pages` of `ingest.py`: pages are numbered from 1. -/
def pdf_to_pages (raws : List (List Char)) : List (Nat × List Char) :=
  pdf_to_pages_from 1 raws

/-- `chunk_text` on a text: encode, window, decode each window.  The
tiktoken encoder and decoder are external collaborators. -/
def chunk_text_str (encode : List Char → List Nat)
    (decode : List Nat → List Char) (txt : List Char) (maxT overlap : Nat) :
    Option (List (List Char)) :=
  (chunk_text (encode txt) maxT overlap).map (fun ws => ws.map decode)

/-- The chunk id `f"{pdf_path.name}-p{page_no}-{idx}-{uuid4().hex[:8]}"`;
the random suffix is supplied by the caller. -/
def mkChunkId (name : String) (page idx : Nat) (sfx : String) : String :=
  name ++ "-p" ++ toString page ++ "-" ++ toString idx ++ "-" ++ sfx

/-- The page loop of `ingest_single_pdf`: skip pages whose cleaned text
is empty (falsy), chunk each remaining page with
`(max_tokens := 500, overlap := 80)`, and accumulate the aligned ids,
documents and metadata `{"source": name, "page": page_no}` in page
order.  `none` propagates a non-terminating chunking call. -/
def collectChunks (encode : List Char → List Nat)
    (decode : List Nat → List Char) (name : String)
    (mkSuffix : Nat → Nat → String) :
    List (Nat × List Char) →
      Option (List String × List (List Char) × List Meta)
  | [] => some ([], [], [])
  | (pno, ptxt) :: rest =>
    if ptxt = [] then collectChunks encode decode name mkSuffix rest
    else
      match chunk_text_str encode decode ptxt 500 80 with
      | none => none
      | some chunks =>
        (collectChunks encode decode name mkSuffix rest).map (fun r =>
          ((List.range chunks.length).map
              (fun idx => mkChunkId name pno idx (mkSuffix pno idx)) ++ r.1,
           chunks ++ r.2.1,
           chunks.map (fun _ => [("source", PyVal.s name), ("page", PyVal.i pno)])
             ++ r.2.2))

/-- The `col.add` loop of `ingest_single_pdf`: the four aligned lists are
written in slices of `batchSize` (256 in the source). -/
def addBatches {V : Type} (batchSize : Nat) :
    List String → List (List Char) → List Meta → List V →
      List (List String × List (List Char) × List Meta × List V)
  | _, [], _, _ => []
  | ids, d :: ds, metas, vecs =>
    if _h : batchSize = 0 then []
    else
      (ids.take batchSize, (d :: ds).take batchSize, metas.take batchSize,
        vecs.take batchSize)
      :: addBatches batchSize (ids.drop batchSize) ((d :: ds).drop batchSize)
          (metas.drop batchSize) (vecs.drop batchSize)
termination_by _ ds _ _ => ds.length
decreasing_by
  simp_wf
  omega

/-- The `{"pages": ..., "chunks": ...}` summary returned by
`ingest_single_pdf`. -/
structure IngestStats where
  pages : Nat
  chunks : Nat
deriving DecidableEq

/-- The observable behaviour of one `ingest_single_pdf` run: the
returned summary, whether the embedder collaborator was invoked, and
every batch written to the vector store. -/
structure IngestTrace (V : Type) where
  stats : IngestStats
  embedderCalled : Bool
  storeAdds : List (List String × List (List Char) × List Meta × List V)

/-- `ingest_single_pdf` of `ingest.py`: paginate, skip empty pages,
chunk, then — only if any chunk was produced — embed all chunk texts in
order through `embed_batches` (batch size 64) and upsert to the store in
batches of 256; with zero chunks it short-circuits to
`{"pages": page_count, "chunks": 0}` before either collaborator is
touched. -/
def ingest_single_pdf {V : Type} (encode : List Char → List Nat)
    (decode : List Nat → List Char) (embedOne : List Char → V)
    (name : String) (raws : List (List Char))
    (mkSuffix : Nat → Nat → String) : Option (IngestTrace V) :=
  match collectChunks encode decode name mkSuffix (pdf_to_pages raws) with
  | none => none
  | some (ids, docs, metas) =>
    if docs = [] then
      some ⟨⟨(pdf_to_pages raws).length, 0⟩, false, []⟩
    else
      some ⟨⟨(pdf_to_pages raws).length, docs.length⟩, true,
        addBatches 256 ids docs metas (embed_batches embedOne 64 docs)⟩

/-- Pagination yields one page per raw page text. -/
theorem pdf_to_pages_from_length (n : Nat) (raws : List (List Char)) :
    (pdf_to_pages_from n raws).length = raws.length := by
  induction raws generalizing n with
  | nil => rfl
  | cons r rest ih => simp [pdf_to_pages_from, ih]

/-- If every raw page cleans to empty, every yielded page is empty. -/
theorem pdf_to_pages_from_empty (n : Nat) (raws : List (List Char))
    (h : ∀ r ∈ raws, clean r = []) :
    ∀ p ∈ pdf_to_pages_from n raws, p.2 = ([] : List Char) := by
  induction raws generalizing n with
  | nil =>
    intro p hp
    simp [pdf_to_pages_from] at hp
  | cons r rest ih =>
    intro p hp
    simp only [pdf_to_pages_from] at hp
    rcases List.mem_cons.mp hp with h1 | h1
    · rw [h1]
      exact h r (by simp)
    · exact ih (n + 1) (fun q hq => h q (by simp [hq])) p h1

/-- The page loop over only-empty pages collects nothing. -/
theorem collectChunks_empty (encode : List Char → List Nat)
    (decode : List Nat → List Char) (name : String)
    (mkSuffix : Nat → Nat → String) :
    ∀ (pages : List (Nat × List Char)),
      (∀ p ∈ pages, p.2 = ([] : List Char)) →
      collectChunks encode decode name mkSuffix pages = some ([], [], []) := by
  intro pages
  induction pages with
  | nil => intro _; rfl
  | cons p rest ih =>
    intro h
    rcases p with ⟨pno, ptxt⟩
    have hp : ptxt = [] := h (pno, ptxt) (by simp)
    subst hp
    simp only [collectChunks, if_pos rfl]
    exact ih (fun q hq => h q (by simp [hq]))

/-- C8: when every page of the document extracts to empty text after
cleaning, `ingest_single_pdf` returns `{"pages": N, "chunks": 0}` with
`N` the total page count, the embedder collaborator is never invoked and
nothing is written to the vector store. -/
theorem ingest_empty_document {V : Type} (encode : List Char → List Nat)
    (decode : List Nat → List Char) (embedOne : List Char → V)
    (name : String) (raws : List (List Char))
    (mkSuffix : Nat → Nat → String)
    (h : ∀ r ∈ raws, clean r = []) :
    ingest_single_pdf encode decode embedOne name raws mkSuffix
      = some ⟨⟨raws.length, 0⟩, false, []⟩ := by
  have hcol := collectChunks_empty encode decode name mkSuffix
    (pdf_to_pages raws) (pdf_to_pages_from_empty 1 raws h)
  simp only [ingest_single_pdf, hcol]
  simp [pdf_to_pages, pdf_to_pages_from_length]

/-- Witness for C8: a two-page document whose pages are `""` and
`"  "`. -/
theorem ingest_empty_document_witness :
    ingest_single_pdf (fun _ => ([] : List Nat)) (fun _ => ([] : List Char))
        (fun _ => (0 : Nat)) "doc.pdf" [[], [' ', ' ']]
        (fun _ _ => "abc12345")
      = some ⟨⟨([[], [' ', ' ']] : List (List Char)).length, 0⟩, false, []⟩ :=
  ingest_empty_document (fun _ => ([] : List Nat)) (fun _ => ([] : List Char))
    (fun _ => (0 : Nat)) "doc.pdf" [[], [' ', ' ']] (fun _ _ => "abc12345")
    (by
      intro r hr
      rcases List.mem_cons.mp hr with h | h
      · rw [h]
        simp [clean, collapseWS, stripWS]
      · rcases List.mem_cons.mp h with h2 | h2
        · rw [h2]
          have hsp : pyIsSpace ' ' = true := by decide
          simp [clean, collapseWS, stripWS, hsp]
        · simp at h2)

/-- One persisted vector-store record. -/
structure StoreRec (V : Type) where
  id : String
  document : List Char
  meta : Meta
  embedding : V
deriving DecidableEq

/-- `delete_pdf` of `app.py` acting on the store contents:
`col.delete(where={"source": filename})`.  The Chroma collection is the
external vector store collaborator; per the spec's Vector Store Adapter
contract its metadata-predicate delete bulk-removes exactly the matching
records — here those whose `source` metadata equals the stored
filename. -/
def delete_pdf {V : Type} (recs : List (StoreRec V)) (filename : String) :
    List (StoreRec V) :=
  recs.filter
    (fun r => decide (¬ metaGet r.meta "source" = some (PyVal.s filename)))

/-- C9: deleting a document by its stored filename removes exactly the
records whose `source` metadata equals that filename: the surviving
records are a sublist of the original store, none of them bears the
deleted source, and every record value keeps its exact multiplicity
unless its source is the deleted one, in which case it is gone. -/
theorem delete_pdf_scope {V : Type} [DecidableEq V]
    (recs : List (StoreRec V)) (filename : String) :
    List.Sublist (delete_pdf recs filename) recs
    ∧ (∀ r ∈ delete_pdf recs filename,
        ¬ metaGet r.meta "source" = some (PyVal.s filename))
    ∧ (∀ r : StoreRec V,
        List.count r (delete_pdf recs filename)
          = if metaGet r.meta "source" = some (PyVal.s filename) then 0
            else List.count r recs) := by
  refine ⟨List.filter_sublist _, ?_, ?_⟩
  · intro r hr
    have hmem := List.of_mem_filter hr
    simpa using hmem
  · intro r
    induction recs with
    | nil =>
      simp only [delete_pdf, List.filter_nil]
      split <;> rfl
    | cons a as ih =>
      by_cases hpa : metaGet a.meta "source" = some (PyVal.s filename)
      · have hdel : delete_pdf (a :: as) filename = delete_pdf as filename := by
          simp [delete_pdf, List.filter_cons, hpa]
        rw [hdel, ih]
        by_cases hr : metaGet r.meta "source" = some (PyVal.s filename)
        · simp [hr]
        · have hne : r ≠ a := fun he => hr (by rw [he]; exact hpa)
          simp [hr, List.count_cons_of_ne hne]
      · have hdel : delete_pdf (a :: as) filename
            = a :: delete_pdf as filename := by
          simp [delete_pdf, List.filter_cons, hpa]
        rw [hdel]
        by_cases hra : r = a
        · subst hra
          rw [List.count_cons_self, ih]
          simp [hpa, List.count_cons_self]
        · rw [List.count_cons_of_ne hra, ih]
          by_cases hr : metaGet r.meta "source" = some (PyVal.s filename)
          · simp [hr]
          · simp [hr, List.count_cons_of_ne hra]
